import Mathlib

/-!
Verification development for the `bbx` BBCode pull parser.

The definitions below are a shallow embedding of the Rust sources:
  - `src/parser/mod.rs`  — the tokenizer (`BBParser::next`), token model,
    open/close tag tracking;
  - `src/parser/rules.rs` — the rule stack and the built-in `NoParseRule`
    (the only rule implementation in the repository);
  - `src/html/mod.rs` — the serializer's writer lookup
    (`HtmlSerializer::get_writer_for_tag`).

Strings are modelled as `List Char`; byte offsets of the source become
character offsets (all operations used by the parser — `find`, slicing,
`trim`, length bookkeeping — act consistently under this change of unit).
Rust's `str::trim` removes Unicode whitespace; `Char.isWhitespace` covers
the ASCII subset, which is the only whitespace exercised by the claims.
-/

/-- Model of `str::find` for a predicate: index of the first element
satisfying `p`, if any. -/
def findIdxOpt (p : α → Bool) : List α → Option Nat
  | [] => none
  | a :: l => if p a then some 0 else (findIdxOpt p l).map (· + 1)

/-- Model of `str::trim`: drop whitespace from both ends. -/
def trimChars (s : List Char) : List Char :=
  ((s.dropWhile Char.isWhitespace).reverse.dropWhile Char.isWhitespace).reverse

/-- Model of `str::eq_ignore_ascii_case` on the character level. -/
def asciiLower (c : Char) : Char :=
  if 'A' ≤ c ∧ c ≤ 'Z' then Char.ofNat (c.toNat + 32) else c

/-- Model of `str::eq_ignore_ascii_case`: equal length and characters equal
up to ASCII case. -/
def eqIgnoreAsciiCase : List Char → List Char → Bool
  | [], [] => true
  | a :: as, b :: bs => asciiLower a == asciiLower b && eqIgnoreAsciiCase as bs
  | _, _ => false

/-- `BBTag` from src/parser/mod.rs: a tag name and its raw argument slice. -/
structure BBTag where
  tag : List Char
  args : List Char
deriving DecidableEq

/-- `TokenKind` from src/parser/mod.rs. The `Custom` variant is omitted: it
is only ever produced by a `CustomParser` rule, and the only rule
implementation in the repository (`NoParseRule`) has action `NoParse`. -/
inductive TokenKind where
  | openBBTag (t : BBTag)
  | closeBBTag (t : BBTag) (matchedOpenIdx : Option Nat)
  | standaloneBBTag (t : BBTag)
  | text
deriving DecidableEq

/-- `Token` from src/parser/mod.rs. -/
structure Token where
  span : List Char
  start : Nat
  kind : TokenKind
deriving DecidableEq

/-- Placeholder token used only as the default of `List.getD` at indices the
surrounding proofs show to be in bounds. -/
def dummyToken : Token := ⟨[], 0, TokenKind.text⟩

/-- `Token::rewrite_as_text` (src/parser/mod.rs:457). -/
def Token.rewriteAsText (tk : Token) : Token :=
  { tk with kind := TokenKind.text }

/-- `Token::rewrite_with_opening_tag` (src/parser/mod.rs:464). The source
panics on a non-close token; the call site only reaches it with a close
token, and the model returns the token unchanged in that impossible case. -/
def Token.rewriteWithOpeningTag (tk : Token) (idx : Nat) : Token :=
  match tk.kind with
  | TokenKind.closeBBTag t _ => { tk with kind := TokenKind.closeBBTag t (some idx) }
  | _ => tk

/-- The `ParserFeature` bitflags (src/parser/mod.rs:15), one Bool per flag. -/
structure ParserFeature where
  popUnordered : Bool
  unmatchedCloseAsText : Bool
deriving DecidableEq

/-- `ParserConfig` (src/parser/mod.rs:10). -/
structure ParserConfig where
  featureFlags : ParserFeature
deriving DecidableEq

/-- `Default` for `ParserConfig`: all feature flags cleared. -/
def ParserConfig.defaultConfig : ParserConfig := ⟨⟨false, false⟩⟩

/-- The rule stack entries (src/parser/rules.rs). The trait object is
instantiated in the repository only by `NoParseRule` (action `NoParse`),
which stores the tag name whose close tag releases it. -/
inductive ParserRule where
  | noParseRule (tagName : List Char)
deriving DecidableEq

/-- `NoParseRule::transform_token` (src/parser/rules.rs:112): release
exactly when the classified token is a close tag whose name equals the
rule's tag name ASCII-case-insensitively. -/
def ParserRule.transformToken : ParserRule → Token → Bool
  | ParserRule.noParseRule name, tk =>
    match tk.kind with
    | TokenKind.closeBBTag t _ => eqIgnoreAsciiCase t.tag name
    | _ => false

/-- `BBParser` state (src/parser/mod.rs:54). The rule stack is kept with its
top at the head of the list (the source pushes/pops at the end of a `Vec`);
likewise `openTags` keeps the most recently opened tag at the head. -/
structure BBParser where
  input : List Char
  config : ParserConfig
  loc : Nat
  openTags : List Token
  closedTags : List Token
  ruleStack : List ParserRule
deriving DecidableEq

/-- `BBParser::new` (src/parser/mod.rs:76): default config, empty stacks. -/
def BBParser.new (input : List Char) : BBParser :=
  ⟨input, ParserConfig.defaultConfig, 0, [], [], []⟩

/-- `BBParser::with_config` (src/parser/mod.rs:81). -/
def BBParser.withConfig (input : List Char) (config : ParserConfig) : BBParser :=
  ⟨input, config, 0, [], [], []⟩

/-- `to_token_kind` (src/parser/mod.rs:164): classification of tag contents
that were split into `tag` and `args` at an argument separator. -/
def toTokenKind (tag args : List Char) : TokenKind :=
  if tag.head? == some '/' then
    TokenKind.closeBBTag ⟨tag.tail, args⟩ none
  else if args.getLast? == some '/' then
    TokenKind.standaloneBBTag ⟨tag, args.dropLast⟩
  else
    TokenKind.openBBTag ⟨tag, args⟩

/-- `to_token_kind_single` (src/parser/mod.rs:185): classification of tag
contents that contain no argument separator. -/
def toTokenKindSingle (tag : List Char) : TokenKind :=
  if tag.head? == some '/' then
    TokenKind.closeBBTag ⟨tag.tail, []⟩ none
  else if tag.getLast? == some '/' then
    TokenKind.standaloneBBTag ⟨tag.dropLast, []⟩
  else
    TokenKind.openBBTag ⟨tag, []⟩

/-- The argument separator set `['=', ' ']` (src/parser/mod.rs:253). -/
def isArgSeparator (c : Char) : Bool := c == '=' || c == ' '

/-- Classification of trimmed tag contents, combining the separator split at
src/parser/mod.rs:253 with `to_token_kind` / `to_token_kind_single`. -/
def classifyTagContents (tagContents : List Char) : TokenKind :=
  match findIdxOpt isArgSeparator tagContents with
  | some argIdx => toTokenKind (tagContents.take argIdx) (tagContents.drop argIdx)
  | none => toTokenKindSingle tagContents

/-- The bracket-tag attempt of `BBParser::next` (src/parser/mod.rs:228-269):
from a `[` at `loc`, find the closing `]`, trim the contents, refuse
contents containing another `[`, and classify. Returns the token and the
new cursor, or `none` when the attempt falls through to the text scan. -/
def tryParseTag (input : List Char) (loc : Nat) : Option (Token × Nat) :=
  match findIdxOpt (fun c => c == ']') (input.drop (loc + 1)) with
  | none => none
  | some tagEnd =>
    let tagContents := trimChars ((input.drop (loc + 1)).take tagEnd)
    if tagContents.any (fun c => c == '[') then none
    else
      some (⟨(input.drop loc).take (tagEnd + 2), loc, classifyTagContents tagContents⟩,
            loc + (tagEnd + 2))

/-- The text-segment scan of `BBParser::next` (src/parser/mod.rs:272-292):
emit text up to the next `[` (skipping over the current character when it
is itself a `[` that failed to start a tag), or to end of input. -/
def textSegment (input : List Char) (loc : Nat) (firstIsOpener : Bool) : Token × Nat :=
  let remaining := input.drop loc
  let segmentEnd :=
    if firstIsOpener then
      match findIdxOpt (fun c => c == '[') (remaining.drop 1) with
      | some i => i + 1
      | none => remaining.length
    else
      match findIdxOpt (fun c => c == '[') remaining with
      | some i => i
      | none => remaining.length
  (⟨remaining.take segmentEnd, loc, TokenKind.text⟩, loc + segmentEnd)

/-- The raw tokenization step of `BBParser::next` (the `'tk` block,
src/parser/mod.rs:214-293) given the first remaining character. -/
def tokenizeRaw (input : List Char) (loc : Nat) (firstChar : Char) : Token × Nat :=
  if firstChar == '[' then
    match tryParseTag input loc with
    | some r => r
    | none => textSegment input loc true
  else textSegment input loc false

/-- The rule phase of `BBParser::next` (src/parser/mod.rs:295-317): the top
rule decides whether to pop itself (evaluated on the pre-rewrite token);
afterwards, if the (possibly new) top rule has action `NoParse`, the token
is rewritten to text. Returns the transformed token and the new stack. -/
def applyRules (stack : List ParserRule) (tk : Token) : Token × List ParserRule :=
  let doPop :=
    match stack.head? with
    | some r => r.transformToken tk
    | none => false
  let stack' := if doPop then stack.tail else stack
  let tk' :=
    match stack'.head? with
    | some (ParserRule.noParseRule _) => tk.rewriteAsText
    | none => tk
  (tk', stack')

/-- The close-tag search over the open-tag stack (src/parser/mod.rs:326-346),
head of the list being the most recently opened tag. `some r` is the loop's
result (`r` the matched position from the top, if any); `none` marks the
`unreachable!` arm for a non-open stack element, which the source turns
into a panic — the tracker never stores such elements (see the C9 theorem). -/
def searchOpenStack (unordered : Bool) (removee : List Char) : List Token → Option (Option Nat)
  | [] => some none
  | tk :: rest =>
    match tk.kind with
    | TokenKind.openBBTag t =>
      if eqIgnoreAsciiCase t.tag removee then some (some 0)
      else if unordered then
        match searchOpenStack unordered removee rest with
        | some (some i) => some (some (i + 1))
        | some none => some none
        | none => none
      else some none
    | _ => none

/-- The tag-tracking phase of `BBParser::next` (src/parser/mod.rs:319-357):
push open tags, resolve close tags against the open stack, move matched
opens to the closed list and index the close token, or (per configuration)
demote an unmatched close to text. In the state the source would panic in
(`unreachable!`, non-open element on the stack) the model returns the token
and state unchanged; the C9 theorem shows that state is never reached. -/
def BBParser.trackToken (p : BBParser) (tk : Token) : Token × BBParser :=
  let p1 :=
    match tk.kind with
    | TokenKind.openBBTag _ => { p with openTags := tk :: p.openTags }
    | _ => p
  match tk.kind with
  | TokenKind.closeBBTag t _ =>
    match searchOpenStack p1.config.featureFlags.popUnordered t.tag p1.openTags with
    | some (some j) =>
      let removed := p1.openTags.getD j dummyToken
      let newClosed := p1.closedTags ++ [removed]
      (tk.rewriteWithOpeningTag (newClosed.length - 1),
       { p1 with openTags := p1.openTags.eraseIdx j, closedTags := newClosed })
    | some none =>
      if p1.config.featureFlags.unmatchedCloseAsText then (tk.rewriteAsText, p1)
      else (tk, p1)
    | none => (tk, p1)
  | _ => (tk, p1)

/-- `BBParser::next` (src/parser/mod.rs:163-361). The `CustomParser` branch
(src/parser/mod.rs:219-223) is omitted: every rule in the repository has
action `NoParse`, so that branch is never taken. -/
def BBParser.next (p : BBParser) : Option (Token × BBParser) :=
  if p.input.length ≤ p.loc then none
  else
    match (p.input.drop p.loc).head? with
    | none => none
    | some firstChar =>
      let r := tokenizeRaw p.input p.loc firstChar
      let s := applyRules p.ruleStack r.1
      some (BBParser.trackToken { p with loc := r.2, ruleStack := s.2 } s.1)

/-- Iterated `next`, collecting the produced tokens; `fuel` bounds the
number of calls (the C10 theorem shows `input.length` calls suffice). -/
def BBParser.runTokens : Nat → BBParser → List Token
  | 0, _ => []
  | fuel + 1, p =>
    match p.next with
    | none => []
    | some (tk, p') => tk :: BBParser.runTokens fuel p'

/-- The parser state after `n` calls to `next` (stopping early at `none`). -/
def BBParser.iterate : Nat → BBParser → BBParser
  | 0, p => p
  | n + 1, p =>
    match p.next with
    | none => p
    | some (_, p') => BBParser.iterate n p'

/-- States reachable from `p` by repeatedly calling `next`. -/
inductive Reaches : BBParser → BBParser → Prop
  | refl (p : BBParser) : Reaches p p
  | step {p q r : BBParser} {tk : Token} :
      Reaches p q → q.next = some (tk, r) → Reaches p r

/-- `BBParser::push_rule` (src/parser/rules.rs:126): push a rule onto the
top of the rule stack mid-iteration. -/
def BBParser.pushRule (p : BBParser) (r : ParserRule) : BBParser :=
  { p with ruleStack := r :: p.ruleStack }

/-- States reachable from `p` by any interleaving of `next` calls and
mid-stream `push_rule` calls (the only operations that mutate a parser). -/
inductive ReachesExt : BBParser → BBParser → Prop
  | refl (p : BBParser) : ReachesExt p p
  | step {p q r : BBParser} {tk : Token} :
      ReachesExt p q → q.next = some (tk, r) → ReachesExt p r
  | push {p q : BBParser} (r : ParserRule) :
      ReachesExt p q → ReachesExt p (q.pushRule r)

/-- Concatenation of the spans of a token list. -/
def joinSpans (ts : List Token) : List Char :=
  ts.foldr (fun tk acc => tk.span ++ acc) []

/-- `HtmlSerializer` state (src/html/mod.rs:86), restricted to what
`get_writer_for_tag` consults: each registered writer is represented by its
`match_tag` predicate, and the `HashMap<String, usize>` tag cache by an
association list. -/
structure HtmlSerializer where
  tagImpls : List (List Char → Bool)
  tagCache : List (List Char × Nat)

/-- Model of `HashMap::get` on the association-list cache. -/
def cacheGet (cache : List (List Char × Nat)) (key : List Char) : Option Nat :=
  match cache with
  | [] => none
  | (k, v) :: rest => if k == key then some v else cacheGet rest key

/-- `HtmlSerializer::get_writer_for_tag` (src/html/mod.rs:224-239): consult
the cache, otherwise linearly scan `tag_impls` with `match_tag`. The result
is the index of the resolved writer (the source returns
`tag_impls[idx].as_ref()`), paired with the serializer state after the
call — which the source leaves untouched: the method borrows `self`
immutably and contains no insertion into `tag_cache`. -/
def HtmlSerializer.getWriterForTag (s : HtmlSerializer) (tagName : List Char) :
    Option Nat × HtmlSerializer :=
  match cacheGet s.tagCache tagName with
  | some imp => (some imp, s)
  | none => (findIdxOpt (fun imp => imp tagName) s.tagImpls, s)

/-- Spec-level argument-separator position: the first occurrence of `=` or
a space character in the tag contents (spec section 4.1, step 4). -/
def specSepIdx (content : List Char) : Option Nat :=
  findIdxOpt isArgSeparator content

/-- Spec-level tag name: everything before the argument separator, or the
whole contents when no separator exists. -/
def specName (content : List Char) : List Char :=
  match specSepIdx content with
  | some i => content.take i
  | none => content

/-- Spec-level raw argument slice: everything from the separator onward,
separator included, or empty when no separator exists. -/
def specRawArgs (content : List Char) : List Char :=
  match specSepIdx content with
  | some i => content.drop i
  | none => []

/-- Classification of accepted tag contents as the spec words it: contents
with a leading `/` are a close tag whose name is the remainder of the name
part after the `/`; otherwise a trailing `/` in the raw args (or in the
name, when no separator exists) marks a standalone tag with that `/`
stripped; otherwise an open tag. -/
def specClassify (content : List Char) : TokenKind :=
  if content.head? == some '/' then
    TokenKind.closeBBTag ⟨(specName content).tail, specRawArgs content⟩ none
  else
    match specSepIdx content with
    | some _ =>
      if (specRawArgs content).getLast? == some '/' then
        TokenKind.standaloneBBTag ⟨specName content, (specRawArgs content).dropLast⟩
      else TokenKind.openBBTag ⟨specName content, specRawArgs content⟩
    | none =>
      if (specName content).getLast? == some '/' then
        TokenKind.standaloneBBTag ⟨(specName content).dropLast, []⟩
      else TokenKind.openBBTag ⟨specName content, []⟩

/-- Every element of the open-tag stack is an open tag (the invariant behind
the `unreachable!` at src/parser/mod.rs:339). -/
def OpenTagsInv (p : BBParser) : Prop :=
  ∀ tk ∈ p.openTags, ∃ t, tk.kind = TokenKind.openBBTag t

/-- Whether a stack element is an open tag whose name matches `removee`
ASCII-case-insensitively (the success test of the close-tag search at
src/parser/mod.rs:329). -/
def matchesName (removee : List Char) (tk : Token) : Bool :=
  match tk.kind with
  | TokenKind.openBBTag t => eqIgnoreAsciiCase t.tag removee
  | _ => false

/-! ## Basic lemmas about the search and slicing helpers -/

theorem findIdxOpt_lt_length {p : α → Bool} :
    ∀ {l : List α} {i : Nat}, findIdxOpt p l = some i → i < l.length := by
  intro l
  induction l with
  | nil => intro i h; simp [findIdxOpt] at h
  | cons a t ih =>
    intro i h
    by_cases hp : p a
    · simp [findIdxOpt, hp] at h
      simp only [List.length_cons]
      omega
    · simp [findIdxOpt, hp] at h
      obtain ⟨j, hj, rfl⟩ := h
      have := ih hj
      simp only [List.length_cons]
      omega

theorem findIdxOpt_eq_none_iff {p : α → Bool} :
    ∀ {l : List α}, findIdxOpt p l = none ↔ ∀ a ∈ l, p a = false := by
  intro l
  induction l with
  | nil => simp [findIdxOpt]
  | cons a t ih =>
    by_cases hp : p a
    · simp [findIdxOpt, hp]
    · simp [findIdxOpt, hp, ih]

theorem any_eq_false_iff_findIdxOpt_none {p : α → Bool} {l : List α} :
    l.any p = false ↔ findIdxOpt p l = none := by
  rw [findIdxOpt_eq_none_iff, List.any_eq_false]
  constructor <;> intro h a ha <;> have := h a ha <;> simp_all

theorem drop_head_cons {l : List α} {n : Nat} {c : α}
    (h : (l.drop n).head? = some c) : l.drop n = c :: l.drop (n + 1) := by
  cases hd : l.drop n with
  | nil => rw [hd] at h; cases h
  | cons a t =>
    rw [hd] at h
    obtain rfl : a = c := by simpa using h
    have h2 : (l.drop n).drop 1 = l.drop (n + 1) := List.drop_drop 1 n l
    rw [hd] at h2
    simp only [List.drop_succ_cons, List.drop_zero] at h2
    rw [← h2]

/-! ## Shape of the raw tokenization step -/

theorem tryParseTag_some_shape (input : List Char) (loc : Nat) (tk : Token) (n : Nat)
    (hl : loc < input.length) (h : tryParseTag input loc = some (tk, n)) :
    ∃ k, tk = ⟨(input.drop loc).take k, loc, tk.kind⟩ ∧ n = loc + k
      ∧ 0 < k ∧ k ≤ input.length - loc := by
  unfold tryParseTag at h
  split at h
  · cases h
  · next te hte =>
    dsimp only [] at h
    split at h
    · cases h
    · have hlt : te < (input.drop (loc + 1)).length := findIdxOpt_lt_length hte
      rw [List.length_drop] at hlt
      obtain ⟨rfl, rfl⟩ := Prod.mk.inj (Option.some.inj h)
      exact ⟨te + 2, rfl, rfl, by omega, by omega⟩

theorem textSegment_true_shape (input : List Char) (loc : Nat) (hl : loc < input.length) :
    ∃ k, textSegment input loc true = (⟨(input.drop loc).take k, loc, TokenKind.text⟩, loc + k)
      ∧ 0 < k ∧ k ≤ input.length - loc := by
  unfold textSegment
  simp only [if_pos rfl]
  cases hf : findIdxOpt (fun c => c == '[') ((input.drop loc).drop 1) with
  | none =>
    refine ⟨(input.drop loc).length, by simp, ?_, ?_⟩ <;> simp [List.length_drop] <;> omega
  | some i =>
    have := findIdxOpt_lt_length hf
    simp only [List.drop_drop, List.length_drop] at this
    exact ⟨i + 1, rfl, by omega, by omega⟩

theorem textSegment_false_shape (input : List Char) (loc : Nat) (c : Char)
    (hl : loc < input.length) (hc : (input.drop loc).head? = some c)
    (hnc : (c == '[') = false) :
    ∃ k, textSegment input loc false = (⟨(input.drop loc).take k, loc, TokenKind.text⟩, loc + k)
      ∧ 0 < k ∧ k ≤ input.length - loc := by
  unfold textSegment
  simp only [Bool.false_eq_true, if_false]
  have hcons := drop_head_cons hc
  cases hf : findIdxOpt (fun c => c == '[') (input.drop loc) with
  | none =>
    refine ⟨(input.drop loc).length, by simp, ?_, ?_⟩ <;> simp [List.length_drop] <;> omega
  | some i =>
    have hlt := findIdxOpt_lt_length hf
    rw [List.length_drop] at hlt
    rw [hcons] at hf
    simp only [findIdxOpt, hnc, if_false, Bool.false_eq_true] at hf
    obtain ⟨j, _, rfl⟩ := by simpa using hf
    exact ⟨j + 1, rfl, by omega, by omega⟩

theorem tokenizeRaw_shape (input : List Char) (loc : Nat) (c : Char)
    (hl : loc < input.length) (hc : (input.drop loc).head? = some c) :
    ∃ k, tokenizeRaw input loc c
        = (⟨(input.drop loc).take k, loc, (tokenizeRaw input loc c).1.kind⟩, loc + k)
      ∧ 0 < k ∧ k ≤ input.length - loc := by
  unfold tokenizeRaw
  by_cases hbr : (c == '[') = true
  · simp only [hbr, if_true]
    cases htp : tryParseTag input loc with
    | none =>
      obtain ⟨k, hk, h1, h2⟩ := textSegment_true_shape input loc hl
      exact ⟨k, by rw [hk], h1, h2⟩
    | some r =>
      obtain ⟨tk, n⟩ := r
      obtain ⟨k, hk, hn, h1, h2⟩ := tryParseTag_some_shape input loc tk n hl htp
      dsimp only
      refine ⟨k, ?_, h1, h2⟩
      rw [hn, ← hk]
  · simp only [hbr, if_false, Bool.false_eq_true]
    have hnc : (c == '[') = false := by simpa using hbr
    obtain ⟨k, hk, h1, h2⟩ := textSegment_false_shape input loc c hl hc hnc
    exact ⟨k, by rw [hk], h1, h2⟩

/-! ## The rule phase and the tracking phase preserve spans -/

theorem applyRules_span (stack : List ParserRule) (tk : Token) :
    ((applyRules stack tk).1).span = tk.span ∧ ((applyRules stack tk).1).start = tk.start := by
  unfold applyRules
  dsimp only
  split <;> simp [Token.rewriteAsText]

theorem applyRules_stack (stack : List ParserRule) (tk : Token) :
    (applyRules stack tk).2 = stack ∨ (applyRules stack tk).2 = stack.tail := by
  unfold applyRules
  dsimp only
  split <;> simp

theorem applyRules_text (stack : List ParserRule) (tk : Token) (h : tk.kind = TokenKind.text) :
    applyRules stack tk = (tk, stack) := by
  obtain ⟨sp, st, k⟩ := tk
  simp only at h
  subst h
  have hpop : ∀ r : ParserRule, r.transformToken ⟨sp, st, TokenKind.text⟩ = false := by
    intro r; cases r; simp [ParserRule.transformToken]
  unfold applyRules
  cases stack with
  | nil => simp
  | cons r rest =>
    simp only [List.head?_cons, hpop r, if_neg (Bool.false_ne_true)]
    cases hh : (r :: rest).head? with
    | none => simp at hh
    | some r' => cases r' with
      | noParseRule name => simp [hh, Token.rewriteAsText]

theorem rewriteWithOpeningTag_span (tk : Token) (idx : Nat) :
    (tk.rewriteWithOpeningTag idx).span = tk.span
    ∧ (tk.rewriteWithOpeningTag idx).start = tk.start := by
  unfold Token.rewriteWithOpeningTag
  split <;> simp

theorem trackToken_fst (p : BBParser) (tk : Token) :
    ((p.trackToken tk).1).span = tk.span ∧ ((p.trackToken tk).1).start = tk.start := by
  obtain ⟨sp, st, k⟩ := tk
  cases k with
  | openBBTag t => simp [BBParser.trackToken]
  | closeBBTag t i =>
    unfold BBParser.trackToken
    dsimp only
    split
    · exact rewriteWithOpeningTag_span _ _
    · split <;> simp [Token.rewriteAsText]
    · simp
  | standaloneBBTag t => simp [BBParser.trackToken]
  | text => simp [BBParser.trackToken]

theorem trackToken_snd (p : BBParser) (tk : Token) :
    ((p.trackToken tk).2).input = p.input ∧ ((p.trackToken tk).2).loc = p.loc
    ∧ ((p.trackToken tk).2).config = p.config
    ∧ ((p.trackToken tk).2).ruleStack = p.ruleStack := by
  obtain ⟨sp, st, k⟩ := tk
  cases k with
  | openBBTag t => simp [BBParser.trackToken]
  | closeBBTag t i =>
    unfold BBParser.trackToken
    dsimp only
    split
    · simp
    · split <;> simp
    · simp
  | standaloneBBTag t => simp [BBParser.trackToken]
  | text => simp [BBParser.trackToken]

theorem trackToken_text (p : BBParser) (tk : Token) (h : tk.kind = TokenKind.text) :
    p.trackToken tk = (tk, p) := by
  obtain ⟨sp, st, k⟩ := tk
  simp only at h
  subst h
  simp [BBParser.trackToken]

/-! ## Characterization of `next` -/

theorem next_eq_none_iff (p : BBParser) : p.next = none ↔ p.input.length ≤ p.loc := by
  by_cases h : p.input.length ≤ p.loc
  · simp [BBParser.next, h]
  · simp only [h, iff_false]
    cases hd : (p.input.drop p.loc).head? with
    | none =>
      rw [List.head?_eq_none_iff] at hd
      have := congrArg List.length hd
      rw [List.length_drop] at this
      simp at this
      omega
    | some c => simp [BBParser.next, h, hd]

theorem next_eq_some (p : BBParser) (c : Char) (hl : ¬ p.input.length ≤ p.loc)
    (hc : (p.input.drop p.loc).head? = some c) :
    p.next = some (BBParser.trackToken
      { p with loc := (tokenizeRaw p.input p.loc c).2,
               ruleStack := (applyRules p.ruleStack (tokenizeRaw p.input p.loc c).1).2 }
      (applyRules p.ruleStack (tokenizeRaw p.input p.loc c).1).1) := by
  unfold BBParser.next
  simp [hl, hc]

theorem next_some_spec (p : BBParser) (tk : Token) (p' : BBParser)
    (h : p.next = some (tk, p')) :
    p'.input = p.input ∧ p'.config = p.config
    ∧ p.loc < p.input.length
    ∧ p'.loc = p.loc + tk.span.length
    ∧ 0 < tk.span.length
    ∧ p'.loc ≤ p.input.length
    ∧ tk.span = (p.input.drop p.loc).take tk.span.length := by
  by_cases hl : p.input.length ≤ p.loc
  · rw [(next_eq_none_iff p).mpr hl] at h; cases h
  · cases hc : (p.input.drop p.loc).head? with
    | none =>
      rw [List.head?_eq_none_iff] at hc
      have := congrArg List.length hc
      rw [List.length_drop] at this
      simp at this
      omega
    | some c =>
      rw [next_eq_some p c hl hc] at h
      set q : BBParser :=
        { p with loc := (tokenizeRaw p.input p.loc c).2,
                 ruleStack := (applyRules p.ruleStack (tokenizeRaw p.input p.loc c).1).2 }
        with hq
      set tk1 := (applyRules p.ruleStack (tokenizeRaw p.input p.loc c).1).1 with htk1
      have h2 : (tk, p') = q.trackToken tk1 := (Option.some.inj h).symm
      have htk : tk = (q.trackToken tk1).1 := congrArg Prod.fst h2
      have hp' : p' = (q.trackToken tk1).2 := congrArg Prod.snd h2
      obtain ⟨k, hk, hkpos, hkle⟩ := tokenizeRaw_shape p.input p.loc c (by omega) hc
      have hspan1 : tk1.span = (tokenizeRaw p.input p.loc c).1.span :=
        (applyRules_span p.ruleStack (tokenizeRaw p.input p.loc c).1).1
      have hrawspan : (tokenizeRaw p.input p.loc c).1.span = (p.input.drop p.loc).take k := by
        rw [hk]
      have hrawloc : (tokenizeRaw p.input p.loc c).2 = p.loc + k := by
        rw [hk]
      have hspanlen : ((p.input.drop p.loc).take k).length = k := by
        rw [List.length_take, List.length_drop]
        omega
      have hfst := trackToken_fst q tk1
      have hsnd := trackToken_snd q tk1
      have hspanfin : tk.span = (p.input.drop p.loc).take k := by
        rw [htk, hfst.1, hspan1, hrawspan]
      have hlenfin : tk.span.length = k := by
        rw [hspanfin, hspanlen]
      have hqloc : q.loc = p.loc + k := by
        rw [hq]; exact hrawloc
      refine ⟨?_, ?_, by omega, ?_, ?_, ?_, ?_⟩
      · rw [hp', hsnd.1, hq]
      · rw [hp', hsnd.2.2.1, hq]
      · rw [hp', hsnd.2.1, hqloc, hlenfin]
      · rw [hlenfin]; exact hkpos
      · rw [hp', hsnd.2.1, hqloc]; omega
      · rw [hlenfin]; exact hspanfin

/-! ## Run-level lemmas -/

theorem joinSpans_nil : joinSpans [] = [] := rfl

theorem joinSpans_cons (tk : Token) (ts : List Token) :
    joinSpans (tk :: ts) = tk.span ++ joinSpans ts := rfl

theorem runTokens_join (fuel : Nat) :
    ∀ p : BBParser, p.loc ≤ p.input.length → p.input.length - p.loc ≤ fuel →
      joinSpans (BBParser.runTokens fuel p) = p.input.drop p.loc := by
  induction fuel with
  | zero =>
    intro p h1 h2
    have h3 : p.input.length ≤ p.loc := by omega
    simp [BBParser.runTokens, joinSpans, List.drop_eq_nil_of_le h3]
  | succ m ih =>
    intro p h1 h2
    cases hn : p.next with
    | none =>
      have h3 := (next_eq_none_iff p).mp hn
      simp [BBParser.runTokens, hn, joinSpans, List.drop_eq_nil_of_le h3]
    | some r =>
      obtain ⟨tk, p'⟩ := r
      obtain ⟨hin, _, hlt, hloc, hpos, hle, hspan⟩ := next_some_spec p tk p' hn
      simp only [BBParser.runTokens, hn, joinSpans_cons]
      rw [ih p' (by rw [hin]; omega) (by rw [hin]; omega)]
      rw [hspan, hin, hloc]
      have hdd : p.input.drop (p.loc + tk.span.length)
          = (p.input.drop p.loc).drop tk.span.length := by
        rw [List.drop_drop, Nat.add_comm]
      rw [hdd]
      exact List.take_append_drop _ _

theorem iterate_next_none :
    ∀ (n : Nat) (p : BBParser), p.input.length ≤ p.loc + n →
      (BBParser.iterate n p).next = none := by
  intro n
  induction n with
  | zero =>
    intro p h
    exact (next_eq_none_iff p).mpr (by omega)
  | succ m ih =>
    intro p h
    cases hn : p.next with
    | none => simpa [BBParser.iterate, hn] using hn
    | some r =>
      obtain ⟨tk, p'⟩ := r
      obtain ⟨hin, _, hlt, hloc, hpos, hle, _⟩ := next_some_spec p tk p' hn
      simp only [BBParser.iterate, hn]
      exact ih p' (by rw [hin]; omega)

/-! ## The open-tag stack invariant -/

theorem trackToken_inv (p : BBParser) (tk : Token) (hinv : OpenTagsInv p) :
    OpenTagsInv (p.trackToken tk).2 := by
  obtain ⟨sp, st, k⟩ := tk
  cases k with
  | openBBTag t =>
    simp only [BBParser.trackToken]
    intro x hx
    rcases List.mem_cons.mp hx with h | h
    · exact ⟨t, by rw [h]⟩
    · exact hinv x h
  | closeBBTag t i =>
    unfold BBParser.trackToken
    dsimp only
    split
    · intro x hx
      simp only at hx
      exact hinv x ((List.eraseIdx_sublist _ _).mem hx)
    · split
      · exact hinv
      · exact hinv
    · exact hinv
  | standaloneBBTag t => exact hinv
  | text => exact hinv

theorem next_inv (p : BBParser) (tk : Token) (p' : BBParser)
    (h : p.next = some (tk, p')) (hinv : OpenTagsInv p) : OpenTagsInv p' := by
  by_cases hl : p.input.length ≤ p.loc
  · rw [(next_eq_none_iff p).mpr hl] at h; cases h
  · cases hc : (p.input.drop p.loc).head? with
    | none =>
      rw [List.head?_eq_none_iff] at hc
      have := congrArg List.length hc
      rw [List.length_drop] at this
      simp at this
      omega
    | some c =>
      rw [next_eq_some p c hl hc] at h
      have h2 : (tk, p') = _ := (Option.some.inj h).symm
      have hp' := congrArg Prod.snd h2
      show OpenTagsInv (tk, p').2
      rw [hp']
      exact trackToken_inv _ _ hinv

theorem pushRule_inv (p : BBParser) (r : ParserRule) (hinv : OpenTagsInv p) :
    OpenTagsInv (p.pushRule r) :=
  hinv

theorem reachesExt_inv (p0 p : BBParser) (h : ReachesExt p0 p) (hinv : OpenTagsInv p0) :
    OpenTagsInv p := by
  induction h with
  | refl => exact hinv
  | step _ hstep ih => exact next_inv _ _ _ hstep ih
  | push r _ ih => exact pushRule_inv _ r ih

theorem searchOpenStack_ne_none (unordered : Bool) (removee : List Char) :
    ∀ stack : List Token, (∀ tk ∈ stack, ∃ t, tk.kind = TokenKind.openBBTag t) →
      searchOpenStack unordered removee stack ≠ none := by
  intro stack
  induction stack with
  | nil => intro _; simp [searchOpenStack]
  | cons a rest ih =>
    intro h
    obtain ⟨t, ht⟩ := h a (List.mem_cons_self a rest)
    have hrest := ih (fun tk hm => h tk (List.mem_cons_of_mem a hm))
    unfold searchOpenStack
    rw [ht]
    by_cases he : eqIgnoreAsciiCase t.tag removee = true
    · simp [he]
    · simp only [he, Bool.false_eq_true, if_false]
      cases hu : unordered with
      | false => simp
      | true =>
        simp only [if_true]
        cases hres : searchOpenStack true removee rest with
        | none => rw [hu] at hrest; exact absurd hres hrest
        | some v => cases v <;> simp

/-! ## Claim theorems -/

/-- C1: for every input, a parser created with `BBParser.new` (default
config, no rules pushed) yields a finite token sequence from `next` whose
spans concatenate, in order, to the original input exactly; `next` returns
`none` exactly when the cursor has reached the end of the input, and each
successful call advances the cursor by exactly the length of the returned
token's span. -/
theorem c1_span_coverage (input : List Char) :
    joinSpans (BBParser.runTokens (input.length + 1) (BBParser.new input)) = input
    ∧ (∀ p : BBParser, Reaches (BBParser.new input) p →
        (p.next = none ↔ p.input.length ≤ p.loc))
    ∧ (∀ (p p' : BBParser) (tk : Token), Reaches (BBParser.new input) p →
        p.next = some (tk, p') → p'.loc = p.loc + tk.span.length) := by
  refine ⟨?_, ?_, ?_⟩
  · have h := runTokens_join (input.length + 1) (BBParser.new input)
      (by simp [BBParser.new]) (by simp [BBParser.new])
    simpa [BBParser.new] using h
  · intro p _
    exact next_eq_none_iff p
  · intro p p' tk _ h
    exact (next_some_spec p tk p' h).2.2.2.1

/-- Witness for C1 at the concrete input "a[b]". -/
theorem c1_witness :
    joinSpans (BBParser.runTokens 5 (BBParser.new ("a[b]".toList))) = "a[b]".toList :=
  (c1_span_coverage ("a[b]".toList)).1

/-- C9: for a parser constructed with any configuration (`with_config`,
hence also `new`) and mutated by any interleaving of `next` calls and
mid-stream `push_rule` calls, every element ever stored in the open-tag
stack has kind `openBBTag` — elements enter only when the post-rule token
is an open tag and leave only by close resolution — so the close-tag search
(under either matching policy) never reaches the arm corresponding to the
`unreachable!` at src/parser/mod.rs:339 (modelled by `searchOpenStack`
returning `none`). -/
theorem c9_open_stack_invariant (input : List Char) (config : ParserConfig) (p : BBParser)
    (h : ReachesExt (BBParser.withConfig input config) p) :
    (∀ tk ∈ p.openTags, ∃ t, tk.kind = TokenKind.openBBTag t)
    ∧ ∀ (unordered : Bool) (removee : List Char),
        searchOpenStack unordered removee p.openTags ≠ none := by
  have hinv : OpenTagsInv p := by
    apply reachesExt_inv _ _ h
    intro tk hm
    simp [BBParser.withConfig] at hm
  exact ⟨hinv, fun unordered removee => searchOpenStack_ne_none unordered removee _ hinv⟩

/-- Witness for C9 at a `POP_UNORDERED` parser that consumed `[a]` (one tag
on the open stack) and then had a rule pushed mid-stream. -/
theorem c9_witness :
    searchOpenStack true ['b']
      ((⟨"[a]".toList, ⟨⟨true, false⟩⟩, 3,
         [⟨"[a]".toList, 0, TokenKind.openBBTag ⟨['a'], []⟩⟩], [],
         []⟩ : BBParser).pushRule (ParserRule.noParseRule ['n'])).openTags
      ≠ none :=
  (c9_open_stack_invariant ("[a]".toList) ⟨⟨true, false⟩⟩ _
    (ReachesExt.push (ParserRule.noParseRule ['n'])
      (@ReachesExt.step (BBParser.withConfig ("[a]".toList) ⟨⟨true, false⟩⟩)
        (BBParser.withConfig ("[a]".toList) ⟨⟨true, false⟩⟩)
        ⟨"[a]".toList, ⟨⟨true, false⟩⟩, 3,
          [⟨"[a]".toList, 0, TokenKind.openBBTag ⟨['a'], []⟩⟩], [], []⟩
        ⟨"[a]".toList, 0, TokenKind.openBBTag ⟨['a'], []⟩⟩
        (ReachesExt.refl _) (by decide)))).2 true ['b']

/-- C10: with no rules pushed (so no custom-parser rule can be active),
every token returned by `next` has a non-empty span and strictly advances
the cursor, so the stream ends after at most `input.length`
token-producing calls and keeps returning `none` thereafter. -/
theorem c10_termination (input : List Char) :
    (∀ (p p' : BBParser) (tk : Token), p.next = some (tk, p') →
        tk.span ≠ [] ∧ p.loc < p'.loc)
    ∧ ∀ k : Nat, (BBParser.iterate (input.length + k) (BBParser.new input)).next = none := by
  constructor
  · intro p p' tk h
    obtain ⟨_, _, _, hloc, hpos, _, _⟩ := next_some_spec p tk p' h
    constructor
    · intro hnil
      rw [hnil] at hpos
      simp at hpos
    · omega
  · intro k
    apply iterate_next_none
    simp [BBParser.new]

/-- Witness for C10: the first call on input "a" produces the token "a" and
advances the cursor from 0 to 1. -/
theorem c10_witness :
    (⟨['a'], 0, TokenKind.text⟩ : Token).span ≠ []
    ∧ (BBParser.new ['a']).loc
        < (⟨['a'], ParserConfig.defaultConfig, 1, [], [], []⟩ : BBParser).loc :=
  (c10_termination ['a']).1 (BBParser.new ['a'])
    ⟨['a'], ParserConfig.defaultConfig, 1, [], [], []⟩ ⟨['a'], 0, TokenKind.text⟩ (by decide)

/-- C3 counterexample: in "[a[b" the tokenizer meets a `[` with no `]`
anywhere in the remaining input, yet the remainder is emitted as two Text
tokens "[a" and "[b" — not as a single Text token spanning the whole rest. -/
theorem c3_counterexample :
    (BBParser.runTokens 5 (BBParser.new ("[a[b".toList))).map Token.span
      = ["[a".toList, "[b".toList]
    ∧ (BBParser.runTokens 5 (BBParser.new ("[a[b".toList))).map Token.span
      ≠ ["[a[b".toList] := by
  decide

/-- C3 (amended): when the tokenizer meets `[` with no `]` anywhere in the
remaining input, the produced token is a Text token (the unterminated tag
is never tokenized as a tag), and it spans the entire rest of the input —
with the stream then ending — exactly under the proviso that no further `[`
occurs after the opener; otherwise the Text token stops at the next `[`. -/
theorem c3_unterminated_tag (p : BBParser) (hl : p.loc < p.input.length)
    (hc : (p.input.drop p.loc).head? = some '[')
    (hnb : (p.input.drop p.loc).any (fun c => c == ']') = false) :
    ∃ tk p', p.next = some (tk, p') ∧ tk.kind = TokenKind.text
      ∧ ((p.input.drop (p.loc + 1)).any (fun c => c == '[') = false ↔
          (tk.span = p.input.drop p.loc ∧ p'.next = none))
      ∧ (∀ i, findIdxOpt (fun c => c == '[') (p.input.drop (p.loc + 1)) = some i →
          tk.span = (p.input.drop p.loc).take (i + 1)
          ∧ p'.loc = p.loc + (i + 1)
          ∧ p'.next ≠ none) := by
  have hl' : ¬ p.input.length ≤ p.loc := by omega
  have hcons := drop_head_cons hc
  have hall : ∀ a ∈ p.input.drop (p.loc + 1), (a == ']') = false := by
    intro a ha
    have ha' : a ∈ p.input.drop p.loc := by
      rw [hcons]
      exact List.mem_cons_of_mem _ ha
    rcases List.any_eq_false.mp hnb a ha' with hfa
    simpa using hfa
  have hfind : findIdxOpt (fun c => c == ']') (p.input.drop (p.loc + 1)) = none :=
    findIdxOpt_eq_none_iff.mpr hall
  have htp : tryParseTag p.input p.loc = none := by
    unfold tryParseTag
    rw [hfind]
  have htok : tokenizeRaw p.input p.loc '[' = textSegment p.input p.loc true := by
    unfold tokenizeRaw
    rw [htp]
    simp
  have hker : (tokenizeRaw p.input p.loc '[').1.kind = TokenKind.text := by
    rw [htok]
    unfold textSegment
    dsimp only
  have happ := applyRules_text p.ruleStack (tokenizeRaw p.input p.loc '[').1 hker
  have hnext := next_eq_some p '[' hl' hc
  rw [happ] at hnext
  have htrk := trackToken_text
    { p with loc := (tokenizeRaw p.input p.loc '[').2,
             ruleStack := ((tokenizeRaw p.input p.loc '[').1, p.ruleStack).2 }
    (tokenizeRaw p.input p.loc '[').1 hker
  rw [htrk] at hnext
  have hdd : (p.input.drop p.loc).drop 1 = p.input.drop (p.loc + 1) :=
    List.drop_drop 1 p.loc p.input
  refine ⟨(tokenizeRaw p.input p.loc '[').1, _, hnext, hker, ?_, ?_⟩
  · cases hseg : findIdxOpt (fun c => c == '[') (p.input.drop (p.loc + 1)) with
    | none =>
      have hsegval : textSegment p.input p.loc true
          = (⟨p.input.drop p.loc, p.loc, TokenKind.text⟩,
             p.loc + (p.input.drop p.loc).length) := by
        unfold textSegment
        dsimp only
        rw [hdd, hseg]
        simp
      have hspan : (tokenizeRaw p.input p.loc '[').1.span = p.input.drop p.loc := by
        rw [htok, hsegval]
      have hnone : (tokenizeRaw p.input p.loc '[').2
          = p.loc + (p.input.drop p.loc).length := by
        rw [htok, hsegval]
      constructor
      · intro _
        refine ⟨hspan, ?_⟩
        rw [next_eq_none_iff]
        simp only [hnone, List.length_drop]
        omega
      · intro _
        exact any_eq_false_iff_findIdxOpt_none.mpr hseg
    | some i =>
      have hlti : i < (p.input.drop (p.loc + 1)).length := findIdxOpt_lt_length hseg
      rw [List.length_drop] at hlti
      have hsegval : textSegment p.input p.loc true
          = (⟨(p.input.drop p.loc).take (i + 1), p.loc, TokenKind.text⟩,
             p.loc + (i + 1)) := by
        unfold textSegment
        dsimp only
        rw [hdd, hseg]
        simp
      have hloc2 : (tokenizeRaw p.input p.loc '[').2 = p.loc + (i + 1) := by
        rw [htok, hsegval]
      have hne : ¬ (p.input.length ≤ p.loc + (i + 1)) := by omega
      constructor
      · intro habs
        have := any_eq_false_iff_findIdxOpt_none.mp habs
        rw [this] at hseg
        cases hseg
      · intro ⟨_, hend⟩
        have h2 := (next_eq_none_iff _).mp hend
        dsimp only at h2
        rw [hloc2] at h2
        omega
  · intro i hi
    have hlti : i < (p.input.drop (p.loc + 1)).length := findIdxOpt_lt_length hi
    rw [List.length_drop] at hlti
    have hsegval : textSegment p.input p.loc true
        = (⟨(p.input.drop p.loc).take (i + 1), p.loc, TokenKind.text⟩,
           p.loc + (i + 1)) := by
      unfold textSegment
      dsimp only
      rw [hdd, hi]
      simp
    have hloc2 : (tokenizeRaw p.input p.loc '[').2 = p.loc + (i + 1) := by
      rw [htok, hsegval]
    refine ⟨?_, ?_, ?_⟩
    · rw [htok, hsegval]
    · exact hloc2
    · intro habs
      have h2 := (next_eq_none_iff _).mp habs
      dsimp only at h2
      rw [hloc2] at h2
      omega

/-- Witness for C3 (amended) at the concrete input "[ab": the whole input
becomes one Text token and the stream ends. -/
theorem c3_witness :
    ∃ tk p', (BBParser.new ("[ab".toList)).next = some (tk, p')
      ∧ tk.kind = TokenKind.text
      ∧ ((("[ab".toList : List Char).drop (0 + 1)).any (fun c => c == '[') = false ↔
          (tk.span = ("[ab".toList : List Char).drop 0 ∧ p'.next = none))
      ∧ (∀ i, findIdxOpt (fun c => c == '[') (("[ab".toList : List Char).drop (0 + 1))
            = some i →
          tk.span = (("[ab".toList : List Char).drop 0).take (i + 1)
          ∧ p'.loc = 0 + (i + 1)
          ∧ p'.next ≠ none) :=
  c3_unterminated_tag (BBParser.new ("[ab".toList)) (by decide) (by decide) (by decide)

theorem searchOpenStack_unordered_eq_findIdx (removee : List Char) :
    ∀ stack : List Token, (∀ tk ∈ stack, ∃ t, tk.kind = TokenKind.openBBTag t) →
      searchOpenStack true removee stack = some (findIdxOpt (matchesName removee) stack) := by
  intro stack
  induction stack with
  | nil => intro _; rfl
  | cons a rest ih =>
    intro h
    obtain ⟨t, ht⟩ := h a (List.mem_cons_self a rest)
    have hrest := ih (fun tk hm => h tk (List.mem_cons_of_mem a hm))
    have hm : matchesName removee a = eqIgnoreAsciiCase t.tag removee := by
      unfold matchesName
      rw [ht]
    unfold searchOpenStack findIdxOpt
    rw [ht]
    by_cases he : eqIgnoreAsciiCase t.tag removee = true
    · simp [he, hm]
    · have he' : eqIgnoreAsciiCase t.tag removee = false := by simpa using he
      simp only [he', hm, Bool.false_eq_true, if_false, if_true]
      rw [hrest]
      cases hfi : findIdxOpt (matchesName removee) rest <;> simp

/-- C4: under the default matching policy the close-tag search consults only
the top of the open stack — it succeeds (at position 0) exactly when the top
element's name matches ASCII-case-insensitively and fails otherwise — while
under `POP_UNORDERED` it returns the first name match at any depth.
Concretely, on "[a][b]x[/a][/b]" the default config leaves `[/a]`
unresolved, while `POP_UNORDERED` resolves `[/a]` against the open `[a]`
(removing it from the open stack) even though `[b]` is still open. -/
theorem c4_matching_policy :
    (∀ (removee sp : List Char) (st : Nat) (t : BBTag) (rest : List Token),
        searchOpenStack false removee (⟨sp, st, TokenKind.openBBTag t⟩ :: rest)
          = some (if eqIgnoreAsciiCase t.tag removee then some 0 else none))
    ∧ (∀ (removee : List Char) (stack : List Token),
        (∀ tk ∈ stack, ∃ t, tk.kind = TokenKind.openBBTag t) →
        searchOpenStack true removee stack = some (findIdxOpt (matchesName removee) stack))
    ∧ ((BBParser.runTokens 16 (BBParser.new ("[a][b]x[/a][/b]".toList))).map Token.kind
        = [TokenKind.openBBTag ⟨['a'], []⟩, TokenKind.openBBTag ⟨['b'], []⟩, TokenKind.text,
           TokenKind.closeBBTag ⟨['a'], []⟩ none, TokenKind.closeBBTag ⟨['b'], []⟩ (some 0)])
    ∧ ((BBParser.runTokens 16
          (BBParser.withConfig ("[a][b]x[/a][/b]".toList) ⟨⟨true, false⟩⟩)).map Token.kind
        = [TokenKind.openBBTag ⟨['a'], []⟩, TokenKind.openBBTag ⟨['b'], []⟩, TokenKind.text,
           TokenKind.closeBBTag ⟨['a'], []⟩ (some 0), TokenKind.closeBBTag ⟨['b'], []⟩ (some 1)])
    ∧ ((BBParser.iterate 4
          (BBParser.withConfig ("[a][b]x[/a][/b]".toList) ⟨⟨true, false⟩⟩)).openTags.map Token.kind
        = [TokenKind.openBBTag ⟨['b'], []⟩]) := by
  refine ⟨?_, fun removee => searchOpenStack_unordered_eq_findIdx removee,
    by decide, by decide, by decide⟩
  intro removee sp st t rest
  by_cases he : eqIgnoreAsciiCase t.tag removee = true
  · simp [searchOpenStack, he]
  · have he' : eqIgnoreAsciiCase t.tag removee = false := by simpa using he
    simp [searchOpenStack, he']

/-- Witness for C4: the default-policy search at a concrete one-element
stack whose top matches. -/
theorem c4_witness :
    searchOpenStack false ['a'] [⟨"[a]".toList, 0, TokenKind.openBBTag ⟨['a'], []⟩⟩]
      = some (some 0) := by
  have h := c4_matching_policy.1 ['a'] ("[a]".toList) 0 ⟨['a'], []⟩ []
  rw [h]
  decide

/-- C5: whenever a close tag successfully matches an open tag (the search
returns position `j`), the matched element is removed from the open stack,
appended to the end of the closed list, and the returned close token is
rewritten to carry `some i` where `i` is a valid index into the closed-tags
sequence identifying exactly that appended opening token. -/
theorem c5_close_resolution (p : BBParser) (tk : Token) (t : BBTag) (j : Nat)
    (hk : tk.kind = TokenKind.closeBBTag t none)
    (hs : searchOpenStack p.config.featureFlags.popUnordered t.tag p.openTags
            = some (some j)) :
    ((p.trackToken tk).2).closedTags = p.closedTags ++ [p.openTags.getD j dummyToken]
    ∧ ((p.trackToken tk).2).openTags = p.openTags.eraseIdx j
    ∧ ((p.trackToken tk).1).kind = TokenKind.closeBBTag t (some p.closedTags.length)
    ∧ p.closedTags.length < ((p.trackToken tk).2).closedTags.length
    ∧ ((p.trackToken tk).2).closedTags.getD p.closedTags.length dummyToken
        = p.openTags.getD j dummyToken := by
  obtain ⟨sp, st, k⟩ := tk
  simp only at hk
  subst hk
  unfold BBParser.trackToken
  dsimp only
  rw [hs]
  refine ⟨rfl, rfl, ?_, ?_, ?_⟩
  · simp [Token.rewriteWithOpeningTag]
  · simp
  · simp [List.getD_append_right, Nat.sub_self]

/-- Witness for C5: resolving `[/a]` against a stack holding the open `[a]`. -/
theorem c5_witness :
    (((⟨"[a]x[/a]".toList, ParserConfig.defaultConfig, 8,
        [⟨"[a]".toList, 0, TokenKind.openBBTag ⟨['a'], []⟩⟩], [], []⟩ : BBParser).trackToken
        ⟨"[/a]".toList, 4, TokenKind.closeBBTag ⟨['a'], []⟩ none⟩).1).kind
      = TokenKind.closeBBTag ⟨['a'], []⟩ (some 0) :=
  (c5_close_resolution
    ⟨"[a]x[/a]".toList, ParserConfig.defaultConfig, 8,
      [⟨"[a]".toList, 0, TokenKind.openBBTag ⟨['a'], []⟩⟩], [], []⟩
    ⟨"[/a]".toList, 4, TokenKind.closeBBTag ⟨['a'], []⟩ none⟩
    ⟨['a'], []⟩ 0 rfl (by decide)).2.2.1

/-- C6: whenever a close tag fails to match any open tag (the search returns
no position), the parser state — in particular the open stack — is left
unchanged, and the token is rewritten to Text (same span and start) exactly
when `UNMATCHED_CLOSE_AS_TEXT` is set, being otherwise returned unchanged
as a close tag with `matched_open_index` still `none`; no error is raised
in either case (`trackToken` is total). -/
theorem c6_unmatched_close (p : BBParser) (tk : Token) (t : BBTag)
    (hk : tk.kind = TokenKind.closeBBTag t none)
    (hs : searchOpenStack p.config.featureFlags.popUnordered t.tag p.openTags
            = some none) :
    (p.trackToken tk).2 = p
    ∧ (p.trackToken tk).1
        = (if p.config.featureFlags.unmatchedCloseAsText then tk.rewriteAsText else tk)
    ∧ ((p.trackToken tk).1).span = tk.span ∧ ((p.trackToken tk).1).start = tk.start := by
  obtain ⟨sp, st, k⟩ := tk
  simp only at hk
  subst hk
  unfold BBParser.trackToken
  dsimp only
  rw [hs]
  dsimp only
  by_cases hf : p.config.featureFlags.unmatchedCloseAsText = true
  · simp [hf, Token.rewriteAsText]
  · have hf' : p.config.featureFlags.unmatchedCloseAsText = false := by simpa using hf
    simp [hf', Token.rewriteAsText]

/-- Witness for C6: an unmatched `[/b]` against an empty open stack under the
default configuration passes through unchanged. -/
theorem c6_witness :
    ((BBParser.new ("[/b]".toList)).trackToken
        ⟨"[/b]".toList, 0, TokenKind.closeBBTag ⟨['b'], []⟩ none⟩).2
      = BBParser.new ("[/b]".toList) :=
  (c6_unmatched_close (BBParser.new ("[/b]".toList))
    ⟨"[/b]".toList, 0, TokenKind.closeBBTag ⟨['b'], []⟩ none⟩
    ⟨['b'], []⟩ rfl (by decide)).1

theorem transformToken_true_inv (T : List Char) (tk : Token)
    (h : ParserRule.transformToken (ParserRule.noParseRule T) tk = true) :
    ∃ t i0, tk.kind = TokenKind.closeBBTag t i0 ∧ eqIgnoreAsciiCase t.tag T = true := by
  obtain ⟨sp, st, k⟩ := tk
  cases k with
  | closeBBTag t i0 => exact ⟨t, i0, rfl, by simpa [ParserRule.transformToken] using h⟩
  | openBBTag t => simp [ParserRule.transformToken] at h
  | standaloneBBTag t => simp [ParserRule.transformToken] at h
  | text => simp [ParserRule.transformToken] at h

theorem trackToken_close_cases (p : BBParser) (tk : Token) (t : BBTag) (i0 : Option Nat)
    (hk : tk.kind = TokenKind.closeBBTag t i0) :
    (p.config.featureFlags.unmatchedCloseAsText = true
      ∧ searchOpenStack p.config.featureFlags.popUnordered t.tag p.openTags = some none
      ∧ ((p.trackToken tk).1).kind = TokenKind.text)
    ∨ ∃ idx, ((p.trackToken tk).1).kind = TokenKind.closeBBTag t idx := by
  obtain ⟨sp, st, k⟩ := tk
  simp only at hk
  subst hk
  unfold BBParser.trackToken
  dsimp only
  cases hres : searchOpenStack p.config.featureFlags.popUnordered t.tag p.openTags with
  | none => exact Or.inr ⟨i0, rfl⟩
  | some v =>
    cases v with
    | none =>
      by_cases hf : p.config.featureFlags.unmatchedCloseAsText = true
      · exact Or.inl ⟨hf, rfl, by simp [hf, Token.rewriteAsText]⟩
      · have hf' : p.config.featureFlags.unmatchedCloseAsText = false := by simpa using hf
        exact Or.inr ⟨i0, by simp [hf']⟩
    | some j =>
      exact Or.inr ⟨some p.closedTags.length, by simp [Token.rewriteWithOpeningTag]⟩

/-- C7 counterexample: with two nested NoParse rules ("b" above "a") and
input "[/b]x", the top rule releases on the pre-rewrite close tag `[/b]`
(the rule is indeed popped), but the produced token is forced to Text by
the NoParse rule below — it does not pass through as a real close tag,
contrary to the claim as stated. -/
theorem c7_counterexample :
    (({ BBParser.new ("[/b]x".toList) with
        ruleStack := [ParserRule.noParseRule ['b'], ParserRule.noParseRule ['a']] }
      : BBParser).next).map (fun r => (r.1.kind, r.2.ruleStack))
      = some (TokenKind.text, [ParserRule.noParseRule ['a']]) := by
  decide

/-- C7 (amended): while a NoParse rule for tag name `T` is the top of the
rule stack, every token produced by `next` is forced to Text — except that
the release decision is evaluated on the pre-rewrite classified token: when
that token is a close tag whose name matches `T` case-insensitively, the
rule is popped and, provided no rule remains below it, the token reaches
tag tracking as the real classified close tag (not forced to Text by the
rule phase) and comes out as a real close tag, save for the one tracking
case of C6 — under `UNMATCHED_CLOSE_AS_TEXT`, a releasing close that
matches no open tag is still rewritten to Text by tracking
(src/parser/mod.rs:354-356); when the rule below is itself a NoParse rule,
that rule immediately forces this releasing token to Text as well and
resumes forcing Text afterwards. -/
theorem c7_noparse_rule (p : BBParser) (T : List Char) (c : Char)
    (hl : p.loc < p.input.length)
    (hc : (p.input.drop p.loc).head? = some c)
    (htop : p.ruleStack.head? = some (ParserRule.noParseRule T)) :
    ∃ tk p', p.next = some (tk, p')
      ∧ tk.span = (tokenizeRaw p.input p.loc c).1.span
      ∧ tk.start = (tokenizeRaw p.input p.loc c).1.start
      ∧ (ParserRule.transformToken (ParserRule.noParseRule T)
            (tokenizeRaw p.input p.loc c).1 = false →
          tk.kind = TokenKind.text ∧ p'.ruleStack = p.ruleStack)
      ∧ (ParserRule.transformToken (ParserRule.noParseRule T)
            (tokenizeRaw p.input p.loc c).1 = true →
          p'.ruleStack = p.ruleStack.tail
          ∧ (p.ruleStack.tail = [] →
              ∃ t i0, (tokenizeRaw p.input p.loc c).1.kind = TokenKind.closeBBTag t i0
                ∧ ((p.config.featureFlags.unmatchedCloseAsText = true
                      ∧ searchOpenStack p.config.featureFlags.popUnordered t.tag p.openTags
                          = some none
                      ∧ tk.kind = TokenKind.text)
                   ∨ ∃ idx, tk.kind = TokenKind.closeBBTag t idx))
          ∧ (∀ T2, p.ruleStack.tail.head? = some (ParserRule.noParseRule T2) →
              tk.kind = TokenKind.text)) := by
  have hl' : ¬ p.input.length ≤ p.loc := by omega
  have hnext := next_eq_some p c hl' hc
  cases hst : p.ruleStack with
  | nil => rw [hst] at htop; cases htop
  | cons r rest =>
    obtain rfl : r = ParserRule.noParseRule T := by
      rw [hst] at htop
      simpa using htop
    by_cases hrel : ParserRule.transformToken (ParserRule.noParseRule T)
        (tokenizeRaw p.input p.loc c).1 = true
    · cases hrest : rest with
      | nil =>
        have happ : applyRules p.ruleStack (tokenizeRaw p.input p.loc c).1
            = ((tokenizeRaw p.input p.loc c).1, []) := by
          rw [hst, hrest]
          unfold applyRules
          simp [hrel]
        rw [happ] at hnext
        obtain ⟨t, i0, hkraw, _⟩ := transformToken_true_inv T _ hrel
        set q : BBParser :=
          { p with loc := (tokenizeRaw p.input p.loc c).2,
                   ruleStack := (((tokenizeRaw p.input p.loc c).1, ([] : List ParserRule))).2 }
          with hq
        have hcases := trackToken_close_cases q (tokenizeRaw p.input p.loc c).1 t i0 hkraw
        refine ⟨(q.trackToken (tokenizeRaw p.input p.loc c).1).1,
                (q.trackToken (tokenizeRaw p.input p.loc c).1).2, hnext,
                (trackToken_fst q _).1, (trackToken_fst q _).2, ?_, ?_⟩
        · intro hcontra
          rw [hcontra] at hrel
          cases hrel
        · intro _
          refine ⟨?_, ?_, ?_⟩
          · rw [(trackToken_snd q _).2.2.2]
            simp [hq]
          · intro _
            exact ⟨t, i0, hkraw, hcases⟩
          · intro T2 habs
            simp at habs
      | cons r2 rest2 =>
        obtain ⟨T2', rfl⟩ : ∃ T2', r2 = ParserRule.noParseRule T2' := by
          cases r2 with
          | noParseRule nm => exact ⟨nm, rfl⟩
        have happ : applyRules p.ruleStack (tokenizeRaw p.input p.loc c).1
            = ((tokenizeRaw p.input p.loc c).1.rewriteAsText,
               ParserRule.noParseRule T2' :: rest2) := by
          rw [hst, hrest]
          unfold applyRules
          simp [hrel]
        rw [happ] at hnext
        set q : BBParser :=
          { p with loc := (tokenizeRaw p.input p.loc c).2,
                   ruleStack := (((tokenizeRaw p.input p.loc c).1.rewriteAsText,
                     ParserRule.noParseRule T2' :: rest2)).2 }
          with hq
        have hkind : ((tokenizeRaw p.input p.loc c).1.rewriteAsText).kind = TokenKind.text := by
          simp [Token.rewriteAsText]
        have htrk := trackToken_text q _ hkind
        rw [htrk] at hnext
        refine ⟨(tokenizeRaw p.input p.loc c).1.rewriteAsText, q, hnext,
                by simp [Token.rewriteAsText], by simp [Token.rewriteAsText], ?_, ?_⟩
        · intro hcontra
          rw [hcontra] at hrel
          cases hrel
        · intro _
          refine ⟨?_, ?_, ?_⟩
          · simp [hq]
          · intro habs
            simp at habs
          · intro _ _
            exact hkind
    · have hrel' : ParserRule.transformToken (ParserRule.noParseRule T)
          (tokenizeRaw p.input p.loc c).1 = false := by
        simpa using hrel
      have happ : applyRules p.ruleStack (tokenizeRaw p.input p.loc c).1
          = ((tokenizeRaw p.input p.loc c).1.rewriteAsText, p.ruleStack) := by
        rw [hst]
        unfold applyRules
        simp [hrel', hst]
      rw [happ] at hnext
      set q : BBParser :=
        { p with loc := (tokenizeRaw p.input p.loc c).2,
                 ruleStack := (((tokenizeRaw p.input p.loc c).1.rewriteAsText, p.ruleStack)).2 }
        with hq
      have hkind : ((tokenizeRaw p.input p.loc c).1.rewriteAsText).kind = TokenKind.text := by
        simp [Token.rewriteAsText]
      have htrk := trackToken_text q _ hkind
      rw [htrk] at hnext
      refine ⟨(tokenizeRaw p.input p.loc c).1.rewriteAsText, q, hnext,
              by simp [Token.rewriteAsText], by simp [Token.rewriteAsText], ?_, ?_⟩
      · intro _
        exact ⟨hkind, by simp [hq, hst]⟩
      · intro hcontra
        rw [hcontra] at hrel'
        cases hrel'

/-- Witness for C7 (amended): a single NoParse rule for "np" on input
"[b]x" forces the open tag `[b]` to Text without popping the rule. -/
theorem c7_witness :
    ∃ tk p',
      (⟨"[b]x".toList, ParserConfig.defaultConfig, 0, [], [],
         [ParserRule.noParseRule ("np".toList)]⟩ : BBParser).next = some (tk, p')
      ∧ tk.span = (tokenizeRaw ("[b]x".toList) 0 '[').1.span
      ∧ tk.start = (tokenizeRaw ("[b]x".toList) 0 '[').1.start
      ∧ (ParserRule.transformToken (ParserRule.noParseRule ("np".toList))
            (tokenizeRaw ("[b]x".toList) 0 '[').1 = false →
          tk.kind = TokenKind.text
          ∧ p'.ruleStack = (⟨"[b]x".toList, ParserConfig.defaultConfig, 0, [], [],
              [ParserRule.noParseRule ("np".toList)]⟩ : BBParser).ruleStack)
      ∧ (ParserRule.transformToken (ParserRule.noParseRule ("np".toList))
            (tokenizeRaw ("[b]x".toList) 0 '[').1 = true →
          p'.ruleStack = (⟨"[b]x".toList, ParserConfig.defaultConfig, 0, [], [],
              [ParserRule.noParseRule ("np".toList)]⟩ : BBParser).ruleStack.tail
          ∧ ((⟨"[b]x".toList, ParserConfig.defaultConfig, 0, [], [],
               [ParserRule.noParseRule ("np".toList)]⟩ : BBParser).ruleStack.tail = [] →
              ∃ t i0,
                (tokenizeRaw ("[b]x".toList) 0 '[').1.kind = TokenKind.closeBBTag t i0
                ∧ ((ParserConfig.defaultConfig.featureFlags.unmatchedCloseAsText = true
                      ∧ searchOpenStack ParserConfig.defaultConfig.featureFlags.popUnordered
                          t.tag ([] : List Token) = some none
                      ∧ tk.kind = TokenKind.text)
                   ∨ ∃ idx, tk.kind = TokenKind.closeBBTag t idx))
          ∧ (∀ T2, (⟨"[b]x".toList, ParserConfig.defaultConfig, 0, [], [],
               [ParserRule.noParseRule ("np".toList)]⟩ : BBParser).ruleStack.tail.head?
                 = some (ParserRule.noParseRule T2) →
              tk.kind = TokenKind.text)) :=
  c7_noparse_rule _ ("np".toList) '[' (by decide) (by decide) (by decide)

/-- C8: the classification of accepted (whitespace-trimmed) tag contents
agrees with the spec's wording (`specClassify`): a leading `/` yields a
close tag whose name is the remainder, after the `/`, of the part before
any separator; otherwise the contents are split at the first `=` or space
(name before it, raw args from the separator onward including it, or empty
when no separator exists), a trailing `/` in the args (or in the name when
there is no separator) yields a standalone tag with that `/` stripped, and
anything else an open tag. -/
theorem c8_classification (content : List Char) :
    classifyTagContents content = specClassify content := by
  unfold classifyTagContents specClassify specName specRawArgs specSepIdx
  cases hsep : findIdxOpt isArgSeparator content with
  | none =>
    dsimp only
    rfl
  | some i =>
    dsimp only
    have hkey : ((content.take i).head? == some '/') = (content.head? == some '/') := by
      cases content with
      | nil => simp [findIdxOpt] at hsep
      | cons c0 rest =>
        by_cases h0 : isArgSeparator c0 = true
        · have hi : i = 0 := by
            simp [findIdxOpt, h0] at hsep
            omega
          subst hi
          have hor : c0 = '=' ∨ c0 = ' ' := by
            simpa [isArgSeparator] using h0
          have hc0 : (c0 == '/') = false := by
            rcases hor with h | h <;> (subst h; decide)
          simp only [List.take_zero, List.head?_nil, List.head?_cons]
          show (none == some '/') = (some c0 == some '/')
          have h1 : ((none : Option Char) == some '/') = false := rfl
          have h2 : (some c0 == some '/') = (c0 == '/') := rfl
          rw [h1, h2, hc0]
        · have h0' : isArgSeparator c0 = false := by simpa using h0
          simp only [findIdxOpt, h0', Bool.false_eq_true, if_false] at hsep
          obtain ⟨j, hj, rfl⟩ := by simpa using hsep
          simp [List.take_succ_cons]
    unfold toTokenKind
    rw [hkey]

/-- C2: contrary to the memoization the spec describes, the source's
`get_writer_for_tag` never writes to `tag_cache` (it borrows the serializer
immutably and contains no insertion): every call returns the serializer
unchanged, so after a first call for a name the cache is still empty and a
second call with the same name scans `tag_impls` again. -/
theorem c2_writer_cache_never_populated :
    (∀ (s : HtmlSerializer) (name : List Char), (s.getWriterForTag name).2 = s)
    ∧ ((⟨[fun n => n == ['b']], []⟩ : HtmlSerializer).getWriterForTag ['b']).1 = some 0
    ∧ ((((⟨[fun n => n == ['b']], []⟩ : HtmlSerializer).getWriterForTag ['b']).2).getWriterForTag
         ['b']).2.tagCache = [] := by
  refine ⟨?_, rfl, rfl⟩
  intro s name
  unfold HtmlSerializer.getWriterForTag
  split <;> rfl
